import Mathlib

/-!
Verification of the context-assembly and generation-orchestration pipeline of a
browser-based chat client (service file `geminiService`).  JavaScript strings are
modelled as `List Char`, JS numbers that carry vector data as real numbers, and the
network as an oracle parameter.  Each definition is a shallow embedding of the
corresponding function in the source file.
-/

namespace Daubuoi

/-- Embedding of the constant `CHUNK_SIZE_CHARS = 1000` (the chunk size the public
caller `vectorizeFile` always passes to `chunkText`).  Kept as an `Int` because the
termination analysis of the chunking loop must also cover non-positive sizes. -/
def CHUNK_SIZE_CHARS : Int := 1000

/-- Embedding of JavaScript `String.prototype.slice(start, end)` on a string modelled
as a `List Char`: negative indices count from the end, indices are clamped to the
string bounds, and an empty string results when the clamped start is not before the
clamped end. -/
def jsSlice (s : List Char) (start stop : Int) : List Char :=
  let L : Int := s.length
  let st : Int := if start < 0 then max (L + start) 0 else min start L
  let en : Int := if stop < 0 then max (L + stop) 0 else min stop L
  (s.take en.toNat).drop st.toNat

/-- Fuel-indexed embedding of the loop body of `chunkText`
(`for (let i = 0; i < text.length; i += size) chunks.push(text.slice(i, i + size))`),
kept at the level of the raw JS loop: the index `i` is an `Int` (so that non-positive
`size` arguments, under which the JS loop never terminates, can be analysed), and the
fuel bounds the number of loop iterations; `none` means the fuel was exhausted before
the loop condition `i < text.length` became false. -/
def chunkLoop (text : List Char) (size : Int) : Nat → Int → Option (List (List Char))
  | 0, _ => none
  | fuel + 1, i =>
    if i < (text.length : Int) then
      match chunkLoop text size fuel (i + size) with
      | some rest => some (jsSlice text i (i + size) :: rest)
      | none => none
    else
      some []

/-- Structural-fuel version of `chunkText` for positive sizes.  Each loop iteration of
the source consumes at least one character of the remaining text when `0 < size`, so
fuel equal to the length of the text is always sufficient; `chunkText` below applies
exactly that fuel.  `text.take size` and `text.drop size` are `text.slice(i, i + size)`
and the advance of the loop index rebased to the remaining suffix. -/
def chunkTextAux : Nat → List Char → Nat → List (List Char)
  | 0, _, _ => []
  | _ + 1, [], _ => []
  | fuel + 1, c :: cs, size => (c :: cs).take size :: chunkTextAux fuel ((c :: cs).drop size) size

/-- Embedding of `chunkText(text, size)` for positive `size` (the only sizes any caller
passes; `chunkLoop` is the raw-loop model that also covers non-positive sizes, and the
bridge theorem for claim C10 proves the two agree at positive sizes). -/
def chunkText (text : List Char) (size : Nat) : List (List Char) :=
  chunkTextAux text.length text size

/-- Embedding of `rotateKey` on the explicit state `(apiKeys, currentKeyIndex)`:
advance the index when a next key exists and report whether rotation happened.
Note `keys.length - 1` is natural subtraction, which agrees with the JS
`this.apiKeys.length - 1` guard also for the empty list (`0 < -1` is false in JS,
`idx < 0` is false in Lean). -/
def rotateKey (keys : List (List Char)) (idx : Nat) : Nat × Bool :=
  if idx < keys.length - 1 then (idx + 1, true) else (idx, false)

/-- Index reached after `n` successive `rotateKey` calls starting from index 0. -/
def rotateIter (keys : List (List Char)) : Nat → Nat
  | 0 => 0
  | n + 1 => (rotateKey keys (rotateIter keys n)).1

/-- Embedding of `dotProduct`.  The source iterates `i` over the indices of `a` and
sums `a[i] * b[i]`; its single call site guards `a.length === b.length`, under which
the loop computes exactly the sum over the zipped lists. -/
def dotProduct (a b : List ℝ) : ℝ :=
  ((a.zip b).map (fun p => p.1 * p.2)).sum

/-- Embedding of `magnitude`: the square root of the sum of squares of the entries. -/
noncomputable def magnitude (a : List ℝ) : ℝ :=
  Real.sqrt ((a.map (fun x => x * x)).sum)

open Classical in
/-- Embedding of `cosineSimilarity`: 0 on mismatched lengths (the `!a || !b` null
checks of the source have no counterpart on `List`), 0 when either magnitude is zero,
otherwise the dot product divided by the product of the magnitudes. -/
noncomputable def cosineSimilarity (a b : List ℝ) : ℝ :=
  if a.length ≠ b.length then 0
  else if magnitude a = 0 ∨ magnitude b = 0 then 0
  else dotProduct a b / (magnitude a * magnitude b)

/-- Embedding of the `VectorChunk` record: a chunk of document text paired with its
embedding vector. -/
structure VectorChunk where
  text : List Char
  vector : List ℝ

/-- Embedding of the `KnowledgeFile` record, restricted to the fields the retrieval
code reads (`id`, `type` and `size` are display metadata the pipeline never touches).
The optional TS fields `chunks?` and `isActive?` become `Option` fields. -/
structure KnowledgeFile where
  name : List Char
  content : List Char
  chunks : Option (List VectorChunk)
  isActive : Option Bool

/-- Scored chunk entry of `getRelevantContext` (`{ content, score, source }`). -/
structure ScoredChunk where
  content : List Char
  score : ℝ
  source : List Char

/-- Chunk list of a file: the TS code guards `file.chunks` for `undefined` and then
iterates it, which is iteration over `chunks.getD []`. -/
def chunkList (f : KnowledgeFile) : List VectorChunk :=
  f.chunks.getD []

/-- Embedding of `files.filter(f => f.isActive !== false)`. -/
def activeFiles (files : List KnowledgeFile) : List KnowledgeFile :=
  files.filter (fun f => f.isActive != some false)

/-- Embedding of `activeFiles.filter(f => f.chunks && f.chunks.length > 0)`. -/
def vectorizedFiles (files : List KnowledgeFile) : List KnowledgeFile :=
  (activeFiles files).filter (fun f => !(chunkList f).isEmpty)

/-- Embedding of the `allChunks` accumulation loop of `getRelevantContext`: every
chunk of every eligible file, scored by cosine similarity against the query vector
and tagged with the source file name. -/
noncomputable def scoreChunks (queryVector : List ℝ) (files : List KnowledgeFile) :
    List ScoredChunk :=
  (vectorizedFiles files).flatMap fun f =>
    (chunkList f).map fun ch =>
      { content := ch.text, score := cosineSimilarity queryVector ch.vector, source := f.name }

open Classical in
/-- Embedding of `allChunks.sort((a, b) => b.score - a.score)`: sort so that higher
scores come first. -/
noncomputable def sortByScore (l : List ScoredChunk) : List ScoredChunk :=
  l.mergeSort fun a b => decide (b.score ≤ a.score)

open Classical in
/-- Embedding of the greedy selection loop of `getRelevantContext`: walk the sorted
chunks accumulating `selected` and `currentChars`; a chunk is taken when its score
exceeds 0.4 and it fits under the 150000-character budget; the loop breaks as soon as
20 chunks have been selected. -/
noncomputable def selectLoop :
    List ScoredChunk → List ScoredChunk → Nat → List ScoredChunk
  | [], selected, _ => selected
  | c :: rest, selected, currentChars =>
    let step : List ScoredChunk × Nat :=
      if (0.4 : ℝ) < c.score then
        if currentChars + c.content.length < 150000 then
          (selected ++ [c], currentChars + c.content.length)
        else (selected, currentChars)
      else (selected, currentChars)
    if 20 ≤ step.1.length then step.1
    else selectLoop rest step.1 step.2

/-- Chunk-level embedding of `getRelevantContext(query, files)` given the query
vector returned by the embedding endpoint: score, sort, then greedily select.  The
early returns of the source (no eligible file, embedding failure, empty selection)
all produce an empty fragment, which at this level is the empty selection from an
empty chunk list; the rendered fragment is the selected chunks mapped through a
fixed formatting template in selection order. -/
noncomputable def getRelevantContextChunks (queryVector : List ℝ)
    (files : List KnowledgeFile) : List ScoredChunk :=
  selectLoop (sortByScore (scoreChunks queryVector files)) [] 0

/-- Cumulative character count of the selected chunk texts (the quantity the source
tracks in `currentChars`). -/
def charCount (l : List ScoredChunk) : Nat :=
  (l.map fun c => c.content.length).sum

/-! Streaming tag parser of `sendMessageStream`. -/

/-- Opening tag recognised by the streaming parser. -/
def openTag : List Char := "<thought>".toList

/-- Closing tag recognised by the streaming parser. -/
def closeTag : List Char := "</thought>".toList

/-- Decides whether the pattern (first argument) occurs at the head of the string. -/
def beginsWith : List Char → List Char → Bool
  | [], _ => true
  | _ :: _, [] => false
  | p :: ps, c :: cs => p == c && beginsWith ps cs

/-- Embedding of JavaScript `String.prototype.indexOf(pat)`: the first index at which
the pattern occurs, `none` standing for the JS result -1. -/
def findSub (pat : List Char) : List Char → Option Nat
  | [] => if beginsWith pat [] then some 0 else none
  | c :: cs =>
    if beginsWith pat (c :: cs) then some 0
    else (findSub pat cs).map fun n => n + 1

/-- Result of running the inner `while (buffer.length > 0)` parser loop of
`sendMessageStream` on one fragment: the visible-text delta, the thought delta, the
final buffer contents and the final `inThoughtBlock` flag. -/
structure ParseOut where
  text : List Char
  thought : List Char
  buffer : List Char
  inThoughtBlock : Bool

/-- Fuel-indexed embedding of the `while (buffer.length > 0)` parser loop.  Outside a
thought block, text before a full `<thought>` occurrence is appended to the visible
delta and the loop continues past the tag inside a thought block; with no full
occurrence the whole buffer is appended to the visible delta and cleared (note: the
source does this unconditionally, with no check for a partial tag at the tail).
Inside a thought block the same happens with `</thought>` and the thought delta.
Every iteration either ends the loop with an empty buffer or removes at least the
9 characters of a tag, so fuel `buffer.length + 1` can never be exhausted; the fuel-0
branch is unreachable for the fuel `processFragment` supplies. -/
def parseLoopAux : Nat → List Char → Bool → ParseOut
  | 0, buffer, inT => ⟨[], [], buffer, inT⟩
  | _ + 1, [], inT => ⟨[], [], [], inT⟩
  | fuel + 1, c :: cs, false =>
    match findSub openTag (c :: cs) with
    | some i =>
      let r := parseLoopAux fuel ((c :: cs).drop (i + 9)) true
      ⟨(c :: cs).take i ++ r.text, r.thought, r.buffer, r.inThoughtBlock⟩
    | none => ⟨c :: cs, [], [], false⟩
  | fuel + 1, c :: cs, true =>
    match findSub closeTag (c :: cs) with
    | some i =>
      let r := parseLoopAux fuel ((c :: cs).drop (i + 10)) false
      ⟨r.text, (c :: cs).take i ++ r.thought, r.buffer, r.inThoughtBlock⟩
    | none => ⟨[], c :: cs, [], true⟩

/-- Processing of one streamed fragment: append it to the carried buffer
(`buffer += textChunk`) and run the parser loop to exhaustion. -/
def processFragment (buffer : List Char) (inT : Bool) (textChunk : List Char) : ParseOut :=
  let b := buffer ++ textChunk
  parseLoopAux (b.length + 1) b inT

/-- Mutable state of the stream-consumption loop of `sendMessageStream`. -/
structure StreamState where
  buffer : List Char
  inThoughtBlock : Bool
  fullOutputText : List Char
  fullThoughtText : List Char

/-- Incremental update yielded to the caller: the visible-text delta and the full
aggregated thought trace so far. -/
structure YieldChunk where
  text : List Char
  thought : List Char
deriving DecidableEq

/-- State at the start of the stream loop. -/
def initState : StreamState := ⟨[], false, [], []⟩

/-- One iteration of `for await (const chunk of resultStream)`: a fragment is a pair
of its text and whether it carries grounding metadata.  The deltas are folded into
the aggregates (appending an empty delta is the identity, matching the guarded `+=`
of the source) and an update is yielded exactly when the visible delta, the thought
delta or the grounding metadata is non-empty. -/
def streamStep (st : StreamState) (frag : List Char × Bool) :
    StreamState × Option YieldChunk :=
  let r := processFragment st.buffer st.inThoughtBlock frag.1
  let fullThought := st.fullThoughtText ++ r.thought
  let fullText := st.fullOutputText ++ r.text
  let st' : StreamState := ⟨r.buffer, r.inThoughtBlock, fullText, fullThought⟩
  if r.text ≠ [] ∨ r.thought ≠ [] ∨ frag.2 = true then (st', some ⟨r.text, fullThought⟩)
  else (st', none)

/-- Folding of the whole fragment stream from a given state, collecting the yielded
incremental updates in order. -/
def runStreamFrom (st : StreamState) :
    List (List Char × Bool) → StreamState × List YieldChunk
  | [] => (st, [])
  | f :: rest =>
    let p := streamStep st f
    let q := runStreamFrom p.1 rest
    (q.1, p.2.toList ++ q.2)

/-- Whole-turn stream consumption starting from the initial parser state. -/
def runStream (frags : List (List Char × Bool)) : StreamState × List YieldChunk :=
  runStreamFrom initState frags

/-- Relation of aggregate traces: `extendsTo a b` holds when `b` is `a` with further
characters appended, i.e. the earlier trace is an initial segment of the later one. -/
def extendsTo (a b : List Char) : Prop :=
  ∃ t, a ++ t = b

/-! Attempt loop of `sendMessageStream`: model fallback and key rotation. -/

/-- Embedding of JavaScript `s.includes(pat)` via `indexOf`. -/
def containsSub (pat s : List Char) : Bool :=
  (findSub pat s).isSome

/-- Name of the fast model used as the fallback target. -/
def flashModel : List Char := "gemini-2.5-flash".toList

/-- Substring whose presence in the configured model name marks a pro-tier model. -/
def proSub : List Char := "pro".toList

/-- Classified outcome of one generation call, abstracting the error classification
of the catch block (`isQuotaError`, `isSafetyError`, anything else). -/
inductive Outcome
  | success
  | quota
  | safety
  | other
deriving DecidableEq

/-- Terminal state of one `sendMessageStream` turn. -/
inductive TurnEnd
  | success
  | safetyBlocked
  | thrown (o : Outcome)
  | exhausted
  | streamEnded
deriving DecidableEq

/-- Mutable state read by each iteration of the attempt loop: the configured model
(`this.currentConfig.model`), the active key index and the attempt counter. -/
structure LoopState where
  model : List Char
  keyIdx : Nat
  attempt : Nat

/-- Embedding of the `while (attempt < maxAttempts)` retry loop of
`sendMessageStream`, driven by an oracle list giving the outcome of each successive
generation call.  The trace records, per call issued, the model, key index and
attempt counter in effect for that call.  On a quota error with a model name
containing "pro" the model is set to the fast model and the loop continues without
touching the key index or the attempt counter; otherwise a successful `rotateKey`
advances the key index and consumes an attempt, and an exhausted `rotateKey`
rethrows.  Safety errors and unclassified errors are rethrown immediately.
`streamEnded` is an artifact marking exhaustion of the oracle, not of the loop. -/
def attemptLoop (keys : List (List Char)) (maxAttempts : Nat) :
    List Outcome → LoopState → List (List Char × Nat × Nat) × TurnEnd
  | outcomes, st =>
    if maxAttempts ≤ st.attempt then ([], .exhausted)
    else
      match outcomes with
      | [] => ([], .streamEnded)
      | o :: rest =>
        let call := (st.model, st.keyIdx, st.attempt)
        match o with
        | .success => ([call], .success)
        | .safety => ([call], .safetyBlocked)
        | .other => ([call], .thrown .other)
        | .quota =>
          if containsSub proSub st.model then
            let r := attemptLoop keys maxAttempts rest ⟨flashModel, st.keyIdx, st.attempt⟩
            (call :: r.1, r.2)
          else
            let rk := rotateKey keys st.keyIdx
            if rk.2 then
              let r := attemptLoop keys maxAttempts rest ⟨st.model, rk.1, st.attempt + 1⟩
              (call :: r.1, r.2)
            else ([call], .thrown .quota)

/-- Configuration fields of `AppConfig` that decide the control flow modelled here. -/
structure AppCfg where
  model : List Char
  knowledgeFiles : List KnowledgeFile

/-- Network request issued during a turn. -/
inductive NetEvent
  | embed
  | generate
deriving DecidableEq

/-- Result of a turn as observed by the caller: a thrown configuration error, or the
terminal state of the attempt loop. -/
inductive TurnResult
  | thrownMsg (msg : List Char)
  | ended (t : TurnEnd)
deriving DecidableEq

/-- Message thrown when no configuration is present. -/
def noSessionMsg : List Char :=
  "Chat session not initialized. Please ensure API Key is set.".toList

/-- Message thrown when the key list is empty. -/
def noKeyMsg : List Char :=
  "No API Key provided. Please add one in Settings.".toList

/-- Trace-level embedding of `sendMessageStream`: the guard throws, then context
assembly (whose only network call is the single query embedding inside
`getRelevantContext`, issued exactly when the knowledge list is non-empty and an
eligible vectorized file exists), then the attempt loop, each of whose iterations
issues one generation request.  The first component lists the network requests the
turn issues, in order. -/
def sendMessageStreamRun (cfg : Option AppCfg) (keys : List (List Char))
    (outcomes : List Outcome) : List NetEvent × TurnResult :=
  match cfg with
  | none => ([], .thrownMsg noSessionMsg)
  | some c =>
    if keys.length = 0 then ([], .thrownMsg noKeyMsg)
    else
      let ragEvents : List NetEvent :=
        if c.knowledgeFiles.length ≠ 0 then
          if (vectorizedFiles c.knowledgeFiles).length ≠ 0 then [.embed] else []
        else []
      let r := attemptLoop keys (max 1 keys.length) outcomes ⟨c.model, 0, 0⟩
      (ragEvents ++ r.1.map fun _ => .generate, .ended r.2)

/-! Helper lemmas. -/

theorem rotateIter_eq_min (keys : List (List Char)) (n : Nat) :
    rotateIter keys n = min n (keys.length - 1) := by
  induction n with
  | zero => simp [rotateIter]
  | succ n ih =>
    simp only [rotateIter, rotateKey, ih]
    split <;> rename_i h <;> simp <;> omega

theorem chunkTextAux_nil (fuel size : Nat) : chunkTextAux fuel [] size = [] := by
  cases fuel <;> rfl

theorem chunkTextAux_flatten :
    ∀ (fuel : Nat) (text : List Char) (size : Nat), 0 < size → text.length ≤ fuel →
      (chunkTextAux fuel text size).flatten = text := by
  intro fuel
  induction fuel with
  | zero =>
    intro text size _ hlen
    have : text = [] := List.length_eq_zero.mp (Nat.le_zero.mp hlen)
    subst this
    rfl
  | succ fuel ih =>
    intro text size hs hlen
    cases text with
    | nil => rfl
    | cons c cs =>
      simp only [chunkTextAux, List.flatten_cons]
      rw [ih _ _ hs (by simp [List.length_drop] at *; omega)]
      exact List.take_append_drop size (c :: cs)

theorem ceil_div_step (L size : Nat) (hs : 0 < size) (hL : 1 ≤ L) :
    (L - size + size - 1) / size + 1 = (L + size - 1) / size := by
  have h1 : L + size - 1 = (L - 1) + size := by omega
  rw [h1, Nat.add_div_right _ hs]
  rcases le_or_lt L size with hle | hlt
  · have e1 : L - size + size - 1 = size - 1 := by omega
    rw [e1, Nat.div_eq_of_lt (by omega : size - 1 < size),
      Nat.div_eq_of_lt (by omega : L - 1 < size)]
  · have e1 : L - size + size - 1 = (L - 1 - size) + size := by omega
    have e2 : L - 1 = (L - 1 - size) + size := by omega
    rw [e1, Nat.add_div_right _ hs, e2, Nat.add_div_right _ hs]
    have e3 : L - 1 - size + size - size = L - 1 - size := by omega
    rw [e3]

theorem chunkTextAux_length :
    ∀ (fuel : Nat) (text : List Char) (size : Nat), 0 < size → text.length ≤ fuel →
      (chunkTextAux fuel text size).length = (text.length + size - 1) / size := by
  intro fuel
  induction fuel with
  | zero =>
    intro text size hs hlen
    have : text = [] := List.length_eq_zero.mp (Nat.le_zero.mp hlen)
    subst this
    simp [chunkTextAux_nil, Nat.div_eq_of_lt (by omega : size - 1 < size)]
  | succ fuel ih =>
    intro text size hs hlen
    cases text with
    | nil => simp [chunkTextAux_nil, Nat.div_eq_of_lt (by omega : size - 1 < size)]
    | cons c cs =>
      simp only [chunkTextAux, List.length_cons]
      rw [ih _ _ hs (by simp [List.length_drop] at *; omega)]
      have h2 : ((c :: cs).drop size).length = cs.length + 1 - size := by
        simp [List.length_drop]
      rw [h2]
      exact ceil_div_step (cs.length + 1) size hs (by omega)

theorem chunkTextAux_ne_nil (fuel : Nat) (text : List Char) (size : Nat)
    (ht : text ≠ []) (hlen : text.length ≤ fuel) :
    chunkTextAux fuel text size ≠ [] := by
  cases text with
  | nil => exact absurd rfl ht
  | cons c cs =>
    cases fuel with
    | zero => simp at hlen
    | succ fuel => simp [chunkTextAux]

theorem chunkTextAux_dropLast_length :
    ∀ (fuel : Nat) (text : List Char) (size : Nat), 0 < size → text.length ≤ fuel →
      ∀ c ∈ (chunkTextAux fuel text size).dropLast, c.length = size := by
  intro fuel
  induction fuel with
  | zero =>
    intro text size _ hlen
    have : text = [] := List.length_eq_zero.mp (Nat.le_zero.mp hlen)
    subst this
    simp [chunkTextAux_nil]
  | succ fuel ih =>
    intro text size hs hlen
    cases text with
    | nil => simp [chunkTextAux_nil]
    | cons c cs =>
      simp only [chunkTextAux]
      by_cases hrest : (c :: cs).drop size = []
      · rw [hrest, chunkTextAux_nil]
        simp
      · have hlen2 : ((c :: cs).drop size).length ≤ fuel := by
          simp [List.length_drop] at *; omega
        have hne := chunkTextAux_ne_nil fuel _ size hrest hlen2
        rw [List.dropLast_cons_of_ne_nil hne]
        intro x hx
        rcases List.mem_cons.mp hx with rfl | hx
        · have hsize_le : size ≤ (c :: cs).length := by
            by_contra hcon
            push_neg at hcon
            exact hrest (List.drop_eq_nil_of_le (le_of_lt hcon))
          simp only [List.length_cons] at hsize_le
          simp [List.length_take, List.length_cons]
          omega
        · exact ih _ _ hs hlen2 x hx

theorem chunkTextAux_fuel_irrel :
    ∀ (f1 f2 : Nat) (text : List Char) (size : Nat), 0 < size →
      text.length ≤ f1 → text.length ≤ f2 →
      chunkTextAux f1 text size = chunkTextAux f2 text size := by
  intro f1
  induction f1 with
  | zero =>
    intro f2 text size _ h1 _
    have : text = [] := List.length_eq_zero.mp (Nat.le_zero.mp h1)
    subst this
    rw [chunkTextAux_nil, chunkTextAux_nil]
  | succ f1 ih =>
    intro f2 text size hs h1 h2
    cases text with
    | nil => rw [chunkTextAux_nil, chunkTextAux_nil]
    | cons c cs =>
      cases f2 with
      | zero => simp at h2
      | succ f2 =>
        simp only [chunkTextAux]
        rw [ih f2 _ _ hs (by simp [List.length_drop] at *; omega)
          (by simp [List.length_drop] at *; omega)]

theorem chunkText_step (text : List Char) (size : Nat) (hs : 0 < size) (ht : text ≠ []) :
    chunkText text size = text.take size :: chunkText (text.drop size) size := by
  cases text with
  | nil => exact absurd rfl ht
  | cons c cs =>
    show chunkTextAux (c :: cs).length (c :: cs) size = _
    have : (c :: cs).length = cs.length + 1 := by simp
    rw [this]
    simp only [chunkTextAux]
    rw [chunkTextAux_fuel_irrel cs.length ((c :: cs).drop size).length _ _ hs
      (by simp [List.length_drop]; omega) le_rfl]
    rfl

theorem jsSlice_nat (text : List Char) (i size : Nat) :
    jsSlice text (i : Int) ((i : Int) + (size : Int)) = (text.drop i).take size := by
  have h1 : ¬ ((i : Int) < 0) := by omega
  have h2 : ¬ ((i : Int) + (size : Int) < 0) := by omega
  simp only [jsSlice, if_neg h1, if_neg h2]
  have e1 : (min (i : Int) (text.length : Int)).toNat = min i text.length := by omega
  have e2 : (min ((i : Int) + (size : Int)) (text.length : Int)).toNat
      = min (i + size) text.length := by omega
  rw [e1, e2, List.drop_take]
  rcases le_or_lt text.length i with hge | hlt
  · have d1 : text.drop i = [] := List.drop_eq_nil_of_le hge
    have d2 : text.drop (min i text.length) = text.drop text.length := by
      rw [Nat.min_eq_right hge]
    rw [d2, List.drop_length, d1]
    simp
  · have e3 : min i text.length = i := Nat.min_eq_left (le_of_lt hlt)
    rw [e3]
    rcases le_or_lt (i + size) text.length with hle | hgt
    · rw [Nat.min_eq_left hle]
      congr 1
      omega
    · rw [Nat.min_eq_right (le_of_lt hgt)]
      have hlen : (text.drop i).length = text.length - i := List.length_drop i text
      rw [List.take_of_length_le (by omega), List.take_of_length_le (by omega)]

theorem chunkLoop_eq_chunkText (size : Nat) (hs : 0 < size) :
    ∀ (fuel : Nat) (text : List Char) (i : Nat), text.length ≤ i + fuel →
      chunkLoop text (size : Int) (fuel + 1) (i : Int) = some (chunkText (text.drop i) size) := by
  intro fuel
  induction fuel with
  | zero =>
    intro text i hlen
    simp only [chunkLoop]
    rw [if_neg (by omega : ¬ ((i : Int) < (text.length : Int)))]
    have : text.drop i = [] := List.drop_eq_nil_of_le (by omega)
    rw [this]
    rfl
  | succ fuel ih =>
    intro text i hlen
    by_cases hi : i < text.length
    · have step : chunkLoop text (size : Int) (fuel + 1 + 1) (i : Int)
          = match chunkLoop text (size : Int) (fuel + 1) ((i : Int) + (size : Int)) with
            | some rest => some (jsSlice text (i : Int) ((i : Int) + (size : Int)) :: rest)
            | none => none := by
        simp only [chunkLoop]
        rw [if_pos (by omega : (i : Int) < (text.length : Int))]
      rw [step]
      have cast1 : (i : Int) + (size : Int) = ((i + size : Nat) : Int) := by push_cast; ring
      rw [cast1, ih text (i + size) (by omega)]
      have redux : (match some (chunkText (text.drop (i + size)) size) with
          | some rest => some (jsSlice text (i : Int) (((i + size : Nat) : Int)) :: rest)
          | none => none)
          = some (jsSlice text (i : Int) (((i + size : Nat) : Int))
              :: chunkText (text.drop (i + size)) size) := rfl
      rw [redux, ← cast1, jsSlice_nat]
      have hstep : chunkText (text.drop i) size
          = (text.drop i).take size :: chunkText ((text.drop i).drop size) size :=
        chunkText_step _ _ hs (by
          intro hnil
          have := List.drop_eq_nil_iff.mp hnil
          omega)
      rw [hstep, List.drop_drop]
    · simp only [chunkLoop]
      rw [if_neg (by omega : ¬ ((i : Int) < (text.length : Int)))]
      have : text.drop i = [] := List.drop_eq_nil_of_le (by omega)
      rw [this]
      rfl

theorem chunkLoop_diverges (text : List Char) (ht : text ≠ []) (size : Int) (hneg : size ≤ 0) :
    ∀ (fuel : Nat) (i : Int), i ≤ 0 → chunkLoop text size fuel i = none := by
  intro fuel
  induction fuel with
  | zero => intro i _; rfl
  | succ fuel ih =>
    intro i hi
    have hlen : 1 ≤ text.length := by
      cases text with
      | nil => exact absurd rfl ht
      | cons c cs => simp
    simp only [chunkLoop]
    rw [if_pos (by omega : i < (text.length : Int))]
    rw [ih (i + size) (by omega)]

/-! Claim theorems for key rotation and the chunker. -/

/-- Claim C3: starting from index 0 on an N-key list (N at least 1), each of the
first N-1 `rotateKey` calls returns true and advances the index by exactly one,
reaching N-1; the Nth call returns false and leaves the index unchanged; and after
any number of calls the index remains a valid position, never wrapping. -/
theorem rotateKey_spec (keys : List (List Char)) (hN : 1 ≤ keys.length) :
    (∀ k, k < keys.length - 1 →
        (rotateKey keys (rotateIter keys k)).2 = true ∧ rotateIter keys (k + 1) = k + 1) ∧
    rotateIter keys (keys.length - 1) = keys.length - 1 ∧
    (rotateKey keys (keys.length - 1)).2 = false ∧
    (rotateKey keys (keys.length - 1)).1 = keys.length - 1 ∧
    (∀ m, rotateIter keys m < keys.length) := by
  refine ⟨?_, ?_, ?_, ?_, ?_⟩
  · intro k hk
    constructor
    · rw [rotateIter_eq_min, rotateKey, if_pos (by omega)]
    · rw [rotateIter_eq_min]
      omega
  · rw [rotateIter_eq_min]; omega
  · rw [rotateKey, if_neg (by omega)]
  · rw [rotateKey, if_neg (by omega)]
  · intro m
    rw [rotateIter_eq_min]
    omega

/-- Witness for C3 at the concrete three-key list. -/
theorem rotateKey_spec_witness :
    1 ≤ (["k1".toList, "k2".toList, "k3".toList] : List (List Char)).length ∧
    ((∀ k, k < (["k1".toList, "k2".toList, "k3".toList] : List (List Char)).length - 1 →
        (rotateKey ["k1".toList, "k2".toList, "k3".toList]
            (rotateIter ["k1".toList, "k2".toList, "k3".toList] k)).2 = true ∧
          rotateIter ["k1".toList, "k2".toList, "k3".toList] (k + 1) = k + 1) ∧
      rotateIter ["k1".toList, "k2".toList, "k3".toList]
          ((["k1".toList, "k2".toList, "k3".toList] : List (List Char)).length - 1)
        = (["k1".toList, "k2".toList, "k3".toList] : List (List Char)).length - 1 ∧
      (rotateKey ["k1".toList, "k2".toList, "k3".toList]
          ((["k1".toList, "k2".toList, "k3".toList] : List (List Char)).length - 1)).2 = false ∧
      (rotateKey ["k1".toList, "k2".toList, "k3".toList]
          ((["k1".toList, "k2".toList, "k3".toList] : List (List Char)).length - 1)).1
        = (["k1".toList, "k2".toList, "k3".toList] : List (List Char)).length - 1 ∧
      (∀ m, rotateIter ["k1".toList, "k2".toList, "k3".toList] m
        < (["k1".toList, "k2".toList, "k3".toList] : List (List Char)).length)) :=
  ⟨by decide, rotateKey_spec ["k1".toList, "k2".toList, "k3".toList] (by decide)⟩

/-- Claim C5: for positive chunk size, the chunks of `chunkText` concatenate back to
the input text in order, the chunk count is the ceiling of length divided by size
(written as `(length + size - 1) / size`), and every chunk except possibly the last
has length exactly `size`. -/
theorem chunkText_spec (text : List Char) (size : Nat) (hs : 0 < size) :
    (chunkText text size).flatten = text ∧
    (chunkText text size).length = (text.length + size - 1) / size ∧
    ∀ c ∈ (chunkText text size).dropLast, c.length = size :=
  ⟨chunkTextAux_flatten _ _ _ hs le_rfl, chunkTextAux_length _ _ _ hs le_rfl,
    chunkTextAux_dropLast_length _ _ _ hs le_rfl⟩

/-- Witness for C5 at text "abcde" and size 2. -/
theorem chunkText_spec_witness :
    0 < 2 ∧
    ((chunkText "abcde".toList 2).flatten = "abcde".toList ∧
      (chunkText "abcde".toList 2).length = ("abcde".toList.length + 2 - 1) / 2 ∧
      ∀ c ∈ (chunkText "abcde".toList 2).dropLast, c.length = 2) :=
  ⟨by decide, chunkText_spec "abcde".toList 2 (by decide)⟩

/-- Claim C10: the chunking loop terminates on every text when the size is positive
(with the loop result agreeing with `chunkText`), while for non-positive size and
non-empty text no amount of fuel makes the loop terminate; the public caller
`vectorizeFile` always passes the positive constant `CHUNK_SIZE_CHARS = 1000`, under
which the loop always terminates. -/
theorem chunkLoop_termination (text : List Char) (size : Nat) (hs : 0 < size)
    (t2 : List Char) (h2 : t2 ≠ []) (size2 : Int) (hneg : size2 ≤ 0) :
    chunkLoop text (size : Int) (text.length + 1) 0 = some (chunkText text size) ∧
    (∀ fuel, chunkLoop t2 size2 fuel 0 = none) ∧
    0 < CHUNK_SIZE_CHARS ∧
    chunkLoop text CHUNK_SIZE_CHARS (text.length + 1) 0
      = some (chunkText text CHUNK_SIZE_CHARS.toNat) := by
  refine ⟨?_, fun fuel => chunkLoop_diverges t2 h2 size2 hneg fuel 0 le_rfl, by decide, ?_⟩
  · have h := chunkLoop_eq_chunkText size hs text.length text 0 (by omega)
    simpa using h
  · have h := chunkLoop_eq_chunkText 1000 (by omega) text.length text 0 (by omega)
    have e : (CHUNK_SIZE_CHARS : Int) = ((1000 : Nat) : Int) := by decide
    rw [e]
    simpa using h

/-- Witness for C10 at text "abc" with size 2 and at text "a" with size 0. -/
theorem chunkLoop_termination_witness :
    0 < 2 ∧ "a".toList ≠ [] ∧ (0 : Int) ≤ 0 ∧
    (chunkLoop "abc".toList ((2 : Nat) : Int) ("abc".toList.length + 1) 0
        = some (chunkText "abc".toList 2) ∧
      (∀ fuel, chunkLoop "a".toList 0 fuel 0 = none) ∧
      0 < CHUNK_SIZE_CHARS ∧
      chunkLoop "abc".toList CHUNK_SIZE_CHARS ("abc".toList.length + 1) 0
        = some (chunkText "abc".toList CHUNK_SIZE_CHARS.toNat)) :=
  ⟨by decide, by decide, by decide,
    chunkLoop_termination "abc".toList 2 (by decide) "a".toList (by decide) 0 (by decide)⟩

/-- Claim C9: `cosineSimilarity` returns 0 whenever the vectors have different
lengths or either magnitude is zero (which covers zero-length vectors, whose
magnitude is the square root of the empty sum); when none of those guards fire, both
magnitudes are non-zero, so the division that defines the result never divides by
zero. -/
theorem cosineSimilarity_safe (a b : List ℝ) :
    ((a.length ≠ b.length ∨ magnitude a = 0 ∨ magnitude b = 0) → cosineSimilarity a b = 0) ∧
    (a.length = b.length → magnitude a ≠ 0 → magnitude b ≠ 0 →
      magnitude a * magnitude b ≠ 0 ∧
      cosineSimilarity a b = dotProduct a b / (magnitude a * magnitude b)) := by
  constructor
  · intro h
    unfold cosineSimilarity
    by_cases hl : a.length ≠ b.length
    · rw [if_pos hl]
    · rw [if_neg hl]
      rcases h with h | h
      · exact absurd h hl
      · rw [if_pos h]
  · intro hl ha hb
    refine ⟨mul_ne_zero ha hb, ?_⟩
    unfold cosineSimilarity
    rw [if_neg (by simpa using hl), if_neg (by tauto)]

/-- Witness for C9: length mismatch and a zero vector both give similarity 0. -/
theorem cosineSimilarity_safe_witness :
    cosineSimilarity [(1 : ℝ)] [1, 2] = 0 ∧ cosineSimilarity [(0 : ℝ)] [1] = 0 := by
  constructor
  · exact (cosineSimilarity_safe _ _).1 (Or.inl (by simp))
  · exact (cosineSimilarity_safe _ _).1 (Or.inr (Or.inl (by simp [magnitude])))

/-! Stream parser: helper lemmas. -/

theorem extendsTo_refl (a : List Char) : extendsTo a a :=
  ⟨[], List.append_nil a⟩

theorem extendsTo_trans {a b c : List Char} (h1 : extendsTo a b) (h2 : extendsTo b c) :
    extendsTo a c := by
  obtain ⟨t1, rfl⟩ := h1
  obtain ⟨t2, rfl⟩ := h2
  exact ⟨t1 ++ t2, (List.append_assoc _ _ _).symm⟩

theorem extendsTo_append (a t : List Char) : extendsTo a (a ++ t) :=
  ⟨t, rfl⟩

theorem streamStep_cases (st : StreamState) (frag : List Char × Bool) :
    (streamStep st frag).1.fullThoughtText
        = st.fullThoughtText ++ (processFragment st.buffer st.inThoughtBlock frag.1).thought ∧
    ((streamStep st frag).2 = none →
        (streamStep st frag).1.fullThoughtText = st.fullThoughtText) ∧
    (∀ y, (streamStep st frag).2 = some y →
        y.thought = (streamStep st frag).1.fullThoughtText) := by
  by_cases h : (processFragment st.buffer st.inThoughtBlock frag.1).text ≠ [] ∨
      (processFragment st.buffer st.inThoughtBlock frag.1).thought ≠ [] ∨ frag.2 = true
  · refine ⟨by simp [streamStep, if_pos h], by simp [streamStep, if_pos h], ?_⟩
    intro y hy
    simp only [streamStep, if_pos h, Option.some.injEq] at hy
    simp [streamStep, if_pos h, ← hy]
  · have hcopy := h
    push_neg at hcopy
    refine ⟨by simp [streamStep, if_neg h], ?_, by simp [streamStep, if_neg h]⟩
    intro _
    simp only [streamStep, if_neg h]
    simp [hcopy.2.1]

theorem runStreamFrom_invariant :
    ∀ (frags : List (List Char × Bool)) (st : StreamState),
      List.Chain' (fun a b => extendsTo a.thought b.thought) (runStreamFrom st frags).2 ∧
      (∀ y ∈ (runStreamFrom st frags).2,
          extendsTo st.fullThoughtText y.thought ∧
          extendsTo y.thought (runStreamFrom st frags).1.fullThoughtText) ∧
      extendsTo st.fullThoughtText (runStreamFrom st frags).1.fullThoughtText ∧
      (((runStreamFrom st frags).2.getLast?).getD ⟨[], st.fullThoughtText⟩).thought
        = (runStreamFrom st frags).1.fullThoughtText := by
  intro frags
  induction frags with
  | nil =>
    intro st
    refine ⟨?_, ?_, ?_, ?_⟩ <;> simp [runStreamFrom, extendsTo_refl]
  | cons f rest ih =>
    intro st
    obtain ⟨ihChain, ihMem, ihExt, ihLast⟩ := ih (streamStep st f).1
    obtain ⟨hfull, hnone, hsome⟩ := streamStep_cases st f
    have hext1 : extendsTo st.fullThoughtText (streamStep st f).1.fullThoughtText := by
      rw [hfull]; exact extendsTo_append _ _
    simp only [runStreamFrom]
    cases hy : (streamStep st f).2 with
    | none =>
      have heq := hnone hy
      simp only [hy, Option.toList_none, List.nil_append]
      refine ⟨ihChain, ?_, ?_, ?_⟩
      · intro y hyy
        have hm := ihMem y hyy
        rw [heq] at hm
        exact hm
      · rw [← heq]; exact ihExt
      · rw [← heq]; exact ihLast
    | some y0 =>
      have hy0 := hsome y0 hy
      simp only [hy, Option.toList_some, List.singleton_append]
      refine ⟨?_, ?_, ?_, ?_⟩
      · cases hys : (runStreamFrom (streamStep st f).1 rest).2 with
        | nil => exact List.chain'_singleton y0
        | cons y1 tl =>
          rw [hys] at ihChain
          refine List.chain'_cons.mpr ⟨?_, ihChain⟩
          have hy1 : y1 ∈ (runStreamFrom (streamStep st f).1 rest).2 := by
            rw [hys]; exact List.mem_cons_self _ _
          rw [hy0]
          exact (ihMem y1 hy1).1
      · intro y hyy
        rcases List.mem_cons.mp hyy with rfl | hmem
        · refine ⟨?_, ?_⟩
          · rw [hy0]; exact hext1
          · rw [hy0]; exact ihExt
        · have hm := ihMem y hmem
          exact ⟨extendsTo_trans hext1 hm.1, hm.2⟩
      · exact extendsTo_trans hext1 ihExt
      · cases hys : (runStreamFrom (streamStep st f).1 rest).2 with
        | nil =>
          rw [hys] at ihLast
          simp only [List.getLast?_singleton, Option.getD_some]
          rw [hy0]
          simpa using ihLast
        | cons y1 tl =>
          rw [hys] at ihLast
          rw [List.getLast?_cons_cons]
          cases hz : (y1 :: tl).getLast? with
          | none => exact absurd (List.getLast?_eq_none_iff.mp hz) (by simp)
          | some z =>
            rw [hz] at ihLast
            simpa using ihLast

/-! Claim theorems for the streaming tag parser. -/

/-- Claim C1 is refuted by the code: on the three stream fragments "abc<thou",
"ght>hidden</thou" and "ght>def" the parser of `sendMessageStream` emits the visible
texts "abc<thou", "ght>hidden</thou" and "ght>def" with an empty aggregated thought
trace, instead of the claimed "abc", nothing, "def" with thought "hidden": whenever
the buffer holds no complete tag, the inner loop flushes the whole buffer as visible
text (leaving an empty carry-over buffer), so a tag split across fragment boundaries
is never recognised — despite the source comment announcing a partial-tag check and
the claim requiring it.  A tag that arrives whole inside one fragment is handled, as
the final conjunct shows. -/
theorem parser_flushes_partial_tag :
    (runStream [("abc<thou".toList, false), ("ght>hidden</thou".toList, false),
        ("ght>def".toList, false)]).2
      = [⟨"abc<thou".toList, []⟩, ⟨"ght>hidden</thou".toList, []⟩,
          ⟨"ght>def".toList, []⟩] ∧
    (runStream [("abc<thou".toList, false), ("ght>hidden</thou".toList, false),
        ("ght>def".toList, false)]).1.fullThoughtText = [] ∧
    (runStream [("abc<thou".toList, false), ("ght>hidden</thou".toList, false),
        ("ght>def".toList, false)]).1.buffer = [] ∧
    (runStream [("abc<thought>hidden</thought>def".toList, false)]).2
      = [⟨"abcdef".toList, "hidden".toList⟩] := by
  refine ⟨by decide, by decide, by decide, by decide⟩

/-- Claim C8: within a turn, the `thought` field of each yielded update is the full
aggregated reasoning trace (after any prefix of the fragment stream, the most recent
yield carries exactly the aggregate `fullThoughtText` at that point, not a delta),
every yielded thought is an initial segment of the final aggregate, and successive
yields are monotonically non-shrinking: each yielded thought extends the previous
one. -/
theorem thought_trace_monotone (frags : List (List Char × Bool)) :
    List.Chain' (fun a b => extendsTo a.thought b.thought) (runStream frags).2 ∧
    (∀ y ∈ (runStream frags).2, extendsTo y.thought (runStream frags).1.fullThoughtText) ∧
    (∀ n, (((runStream (frags.take n)).2.getLast?).getD ⟨[], []⟩).thought
        = (runStream (frags.take n)).1.fullThoughtText) := by
  obtain ⟨hChain, hMem, _, _⟩ := runStreamFrom_invariant frags initState
  refine ⟨hChain, fun y hy => (hMem y hy).2, ?_⟩
  intro n
  obtain ⟨_, _, _, hLast⟩ := runStreamFrom_invariant (frags.take n) initState
  exact hLast

/-- Witness for C8 at a concrete two-fragment stream (the theorem has no hypotheses;
this instantiates it at the input whose yields were computed for claim C1). -/
theorem thought_trace_monotone_witness :
    List.Chain' (fun a b => extendsTo a.thought b.thought)
      (runStream [("abc<thought>hid".toList, false), ("den</thought>def".toList, false)]).2 ∧
    (∀ y ∈ (runStream [("abc<thought>hid".toList, false),
        ("den</thought>def".toList, false)]).2,
      extendsTo y.thought
        (runStream [("abc<thought>hid".toList, false),
          ("den</thought>def".toList, false)]).1.fullThoughtText) ∧
    (∀ n, (((runStream ([("abc<thought>hid".toList, false),
            ("den</thought>def".toList, false)].take n)).2.getLast?).getD ⟨[], []⟩).thought
        = (runStream ([("abc<thought>hid".toList, false),
            ("den</thought>def".toList, false)].take n)).1.fullThoughtText) :=
  thought_trace_monotone [("abc<thought>hid".toList, false), ("den</thought>def".toList, false)]

/-! Attempt loop: helper lemmas. -/

theorem attemptLoop_quota_pro (keys : List (List Char)) (m : Nat) (rest : List Outcome)
    (st : LoopState) (h : ¬ m ≤ st.attempt) (hpro : containsSub proSub st.model = true) :
    attemptLoop keys m (.quota :: rest) st
      = ((st.model, st.keyIdx, st.attempt)
            :: (attemptLoop keys m rest ⟨flashModel, st.keyIdx, st.attempt⟩).1,
          (attemptLoop keys m rest ⟨flashModel, st.keyIdx, st.attempt⟩).2) := by
  conv_lhs => rw [attemptLoop.eq_def]
  simp only [if_neg h, hpro, if_pos]

theorem attemptLoop_quota_rotate (keys : List (List Char)) (m : Nat) (rest : List Outcome)
    (st : LoopState) (h : ¬ m ≤ st.attempt) (hpro : containsSub proSub st.model = false)
    (hrot : st.keyIdx < keys.length - 1) :
    attemptLoop keys m (.quota :: rest) st
      = ((st.model, st.keyIdx, st.attempt)
            :: (attemptLoop keys m rest ⟨st.model, st.keyIdx + 1, st.attempt + 1⟩).1,
          (attemptLoop keys m rest ⟨st.model, st.keyIdx + 1, st.attempt + 1⟩).2) := by
  conv_lhs => rw [attemptLoop.eq_def]
  simp only [if_neg h, hpro, Bool.false_eq_true, rotateKey, if_pos hrot, if_true, if_false]

/-! Claim theorems for failure recovery. -/

/-- Claim C2: on a quota error while the configured model name contains "pro", the
attempt loop performs exactly one fallback to the fast model before any key rotation:
the second call is issued with model `gemini-2.5-flash`, the same key index 0 and the
same attempt counter 0 (the fallback neither advances the credential index nor
consumes an attempt); if that call also fails with a quota error, rotation then
proceeds, so the loop continues with key index 1 and attempt counter 1 while keeping
the fast model. -/
theorem pro_fallback_then_rotation (keys : List (List Char)) (model : List Char)
    (hp : containsSub proSub model = true) (hk : 2 ≤ keys.length) (rest : List Outcome) :
    attemptLoop keys (max 1 keys.length) (.quota :: .quota :: rest) ⟨model, 0, 0⟩
      = ((model, 0, 0) :: (flashModel, 0, 0)
            :: (attemptLoop keys (max 1 keys.length) rest ⟨flashModel, 1, 1⟩).1,
          (attemptLoop keys (max 1 keys.length) rest ⟨flashModel, 1, 1⟩).2) := by
  rw [attemptLoop_quota_pro keys (max 1 keys.length) (.quota :: rest) ⟨model, 0, 0⟩
    (by show ¬ max 1 keys.length ≤ 0; omega) hp]
  rw [attemptLoop_quota_rotate keys (max 1 keys.length) rest ⟨flashModel, 0, 0⟩
    (by show ¬ max 1 keys.length ≤ 0; omega) (by decide)
    (by show 0 < keys.length - 1; omega)]

/-- Witness for C2 at a concrete pro model and two keys. -/
theorem pro_fallback_then_rotation_witness :
    containsSub proSub "gemini-2.5-pro".toList = true ∧
    2 ≤ (["k1".toList, "k2".toList] : List (List Char)).length ∧
    attemptLoop ["k1".toList, "k2".toList] (max 1 (["k1".toList, "k2".toList] :
          List (List Char)).length)
        (.quota :: .quota :: []) ⟨"gemini-2.5-pro".toList, 0, 0⟩
      = (("gemini-2.5-pro".toList, 0, 0) :: (flashModel, 0, 0)
            :: (attemptLoop ["k1".toList, "k2".toList]
                (max 1 (["k1".toList, "k2".toList] : List (List Char)).length)
                [] ⟨flashModel, 1, 1⟩).1,
          (attemptLoop ["k1".toList, "k2".toList]
              (max 1 (["k1".toList, "k2".toList] : List (List Char)).length)
              [] ⟨flashModel, 1, 1⟩).2) :=
  ⟨by decide, by decide,
    pro_fallback_then_rotation ["k1".toList, "k2".toList] "gemini-2.5-pro".toList
      (by decide) (by decide) []⟩

/-- Claim C6: with an empty credential list, `sendMessageStream` throws the
configuration error "No API Key provided. Please add one in Settings." immediately:
the turn issues no network request at all (no embedding call, no generation call),
and the message is distinct from the missing-configuration error. -/
theorem no_key_fails_fast (cfg : AppCfg) (keys : List (List Char))
    (outcomes : List Outcome) (h : keys = []) :
    sendMessageStreamRun (some cfg) keys outcomes = ([], .thrownMsg noKeyMsg) ∧
    noKeyMsg ≠ noSessionMsg := by
  subst h
  exact ⟨rfl, by decide⟩

/-- Witness for C6 at a concrete configuration holding an active vectorized file
(so that a non-empty key list would have issued network requests). -/
theorem no_key_fails_fast_witness :
    ([] : List (List Char)) = [] ∧
    (sendMessageStreamRun
        (some ⟨"gemini-2.5-pro".toList,
          [⟨"notes.txt".toList, "x".toList, some [⟨"x".toList, [1]⟩], some true⟩]⟩)
        [] [.success]
      = ([], .thrownMsg noKeyMsg) ∧
    noKeyMsg ≠ noSessionMsg) :=
  ⟨rfl, no_key_fails_fast
    ⟨"gemini-2.5-pro".toList,
      [⟨"notes.txt".toList, "x".toList, some [⟨"x".toList, [1]⟩], some true⟩]⟩
    [] [.success] rfl⟩

/-! Selection loop: helper lemmas. -/

theorem selectLoop_length_le :
    ∀ (chunks selected : List ScoredChunk) (chars : Nat), selected.length < 20 →
      (selectLoop chunks selected chars).length ≤ 20 := by
  intro chunks
  induction chunks with
  | nil =>
    intro selected chars h
    simpa [selectLoop] using le_of_lt h
  | cons c rest ih =>
    intro selected chars h
    simp only [selectLoop]
    by_cases h1 : (0.4 : ℝ) < c.score
    · by_cases h2 : chars + c.content.length < 150000
      · simp only [if_pos h1, if_pos h2]
        by_cases h3 : 20 ≤ (selected ++ [c]).length
        · rw [if_pos h3]
          simp only [List.length_append, List.length_cons, List.length_nil]
          omega
        · rw [if_neg h3]
          apply ih
          simp only [List.length_append, List.length_cons, List.length_nil] at h3 ⊢
          omega
      · simp only [if_pos h1, if_neg h2]
        rw [if_neg (by omega)]
        exact ih _ _ h
    · simp only [if_neg h1]
      rw [if_neg (by omega)]
      exact ih _ _ h

theorem selectLoop_chars_lt :
    ∀ (chunks selected : List ScoredChunk) (chars : Nat),
      charCount selected = chars → chars < 150000 →
      charCount (selectLoop chunks selected chars) < 150000 := by
  intro chunks
  induction chunks with
  | nil =>
    intro selected chars he h
    simpa [selectLoop, he]
  | cons c rest ih =>
    intro selected chars he h
    simp only [selectLoop]
    have he2 : charCount (selected ++ [c]) = chars + c.content.length := by
      simp only [charCount, List.map_append, List.sum_append, List.map_cons, List.map_nil,
        List.sum_cons, List.sum_nil] at he ⊢
      omega
    by_cases h1 : (0.4 : ℝ) < c.score
    · by_cases h2 : chars + c.content.length < 150000
      · simp only [if_pos h1, if_pos h2]
        split
        · rw [he2]; exact h2
        · exact ih _ _ he2 h2
      · simp only [if_pos h1, if_neg h2]
        split
        · rw [he]; exact h
        · exact ih _ _ he h
    · simp only [if_neg h1]
      split
      · rw [he]; exact h
      · exact ih _ _ he h

theorem selectLoop_score_gt :
    ∀ (chunks selected : List ScoredChunk) (chars : Nat),
      (∀ x ∈ selected, (0.4 : ℝ) < x.score) →
      ∀ x ∈ selectLoop chunks selected chars, (0.4 : ℝ) < x.score := by
  intro chunks
  induction chunks with
  | nil =>
    intro selected chars hsel x hx
    rw [selectLoop] at hx
    exact hsel x hx
  | cons c rest ih =>
    intro selected chars hsel
    have hsel2 : ∀ h1 : (0.4 : ℝ) < c.score, ∀ x ∈ selected ++ [c], (0.4 : ℝ) < x.score := by
      intro h1 x hx
      rcases List.mem_append.mp hx with hx | hx
      · exact hsel x hx
      · rw [List.mem_singleton.mp hx]
        exact h1
    simp only [selectLoop]
    by_cases h1 : (0.4 : ℝ) < c.score
    · by_cases h2 : chars + c.content.length < 150000
      · simp only [if_pos h1, if_pos h2]
        split
        · exact hsel2 h1
        · exact ih _ _ (hsel2 h1)
      · simp only [if_pos h1, if_neg h2]
        split
        · exact hsel
        · exact ih _ _ hsel
    · simp only [if_neg h1]
      split
      · exact hsel
      · exact ih _ _ hsel

theorem selectLoop_subset :
    ∀ (chunks selected : List ScoredChunk) (chars : Nat) (x : ScoredChunk),
      x ∈ selectLoop chunks selected chars → x ∈ selected ∨ x ∈ chunks := by
  intro chunks
  induction chunks with
  | nil =>
    intro selected chars x hx
    rw [selectLoop] at hx
    exact Or.inl hx
  | cons c rest ih =>
    intro selected chars x hx
    simp only [selectLoop] at hx
    have resolve : ∀ s' : List ScoredChunk, (∀ z ∈ s', z ∈ selected ∨ z = c) →
        ∀ chars', x ∈ (if 20 ≤ s'.length then s' else selectLoop rest s' chars') →
        x ∈ selected ∨ x ∈ c :: rest := by
      intro s' hs' chars' hmem
      split at hmem
      · rcases hs' x hmem with h | h
        · exact Or.inl h
        · exact Or.inr (h ▸ List.mem_cons_self c rest)
      · rcases ih s' chars' x hmem with h | h
        · rcases hs' x h with h | h
          · exact Or.inl h
          · exact Or.inr (h ▸ List.mem_cons_self c rest)
        · exact Or.inr (List.mem_cons_of_mem c h)
    by_cases h1 : (0.4 : ℝ) < c.score
    · by_cases h2 : chars + c.content.length < 150000
      · simp only [if_pos h1, if_pos h2] at hx
        refine resolve (selected ++ [c]) ?_ _ hx
        intro z hz
        rcases List.mem_append.mp hz with hz | hz
        · exact Or.inl hz
        · exact Or.inr (List.mem_singleton.mp hz)
      · simp only [if_pos h1, if_neg h2] at hx
        exact resolve selected (fun z hz => Or.inl hz) _ hx
    · simp only [if_neg h1] at hx
      exact resolve selected (fun z hz => Or.inl hz) _ hx

/-! Claim theorems for retrieval. -/

/-- Claim C4: for every query vector and every knowledge-file set, the chunk
selection of `getRelevantContext` obeys all three bounds: at most 20 chunks are
selected, the cumulative character count of the selected chunk texts stays strictly
below 150000, and every selected chunk has cosine-similarity score strictly greater
than 0.4. -/
theorem getRelevantContext_bounds (queryVector : List ℝ) (files : List KnowledgeFile) :
    (getRelevantContextChunks queryVector files).length ≤ 20 ∧
    charCount (getRelevantContextChunks queryVector files) < 150000 ∧
    List.Forall (fun c => (0.4 : ℝ) < c.score) (getRelevantContextChunks queryVector files) := by
  refine ⟨selectLoop_length_le _ _ _ (by simp), selectLoop_chars_lt _ _ _ rfl (by omega), ?_⟩
  rw [List.forall_iff_forall_mem]
  exact selectLoop_score_gt _ _ _ (by simp)

/-- Claim C7: every chunk in the selection of `getRelevantContext` originates from a
file of the input set whose activation flag is not false (inactive files are filtered
out before scoring, so they can never contribute to the result). -/
theorem getRelevantContext_active_only (queryVector : List ℝ) (files : List KnowledgeFile) :
    List.Forall (fun c => ∃ f, f ∈ files ∧ f.isActive ≠ some false ∧
        ∃ ch, ch ∈ chunkList f ∧
          c = { content := ch.text, score := cosineSimilarity queryVector ch.vector,
                source := f.name }) (getRelevantContextChunks queryVector files) := by
  rw [List.forall_iff_forall_mem]
  intro c hc
  simp only [getRelevantContextChunks] at hc
  rcases selectLoop_subset _ _ _ _ hc with hsel | hmem
  · exact absurd hsel (List.not_mem_nil c)
  · rw [sortByScore, List.mem_mergeSort] at hmem
    rw [scoreChunks, List.mem_flatMap] at hmem
    obtain ⟨f, hf, hcm⟩ := hmem
    rw [List.mem_map] at hcm
    obtain ⟨ch, hch, rfl⟩ := hcm
    have hf1 : f ∈ activeFiles files := (List.mem_filter.mp hf).1
    refine ⟨f, (List.mem_filter.mp hf1).1, ?_, ch, hch, rfl⟩
    have hflag := (List.mem_filter.mp hf1).2
    simpa using hflag

end Daubuoi
